import Mathlib

/-!
# gh-notifications: the local store and its reconciliation commands

A shallow embedding of `main.go`.  Go maps are association lists with distinct
keys (`AList`); the order in which a `range` statement visits a map is not fixed
by Go, so it is a parameter of the environment (`RangeOrder`).  The remote
service and the filesystem are oracles of the environment (`Env`); what the
program asked of them and what it printed is recorded in the `World`.
Go strings are modelled by `String`, pointers `*Details` by `Option Details`
(`none` is the nil pointer).  `log.Printf` lines (written to stderr) are left out.
-/

namespace GhNotifications

/-! ## Data model (main.go 36-82) -/

/-- Value of a Go `error`; its content is never inspected by the program. -/
abbrev Err := String

/-- The Go type `Repository`. -/
structure Repository where
  FullName : String
  HtmlUrl : String
deriving DecidableEq, Repr

/-- The Go type `Subject`. -/
structure Subject where
  Title : String
  Url : String
deriving DecidableEq, Repr

/-- The Go type `Details`. -/
structure Details where
  HtmlUrl : String
deriving DecidableEq, Repr

/-- The Go type `Notification`. -/
structure Notification where
  Id : String
  Repository : Repository
  Subject : Subject
deriving DecidableEq, Repr

/-- A Go `map[κ]ν`: finitely many entries, at most one per key. -/
abbrev GoMap (κ ν : Type) := AList (fun _ : κ => ν)

/-- Go's `m[k]` for a `map[string]bool`: the zero value `false` when the key is absent. -/
def GoMap.flag {κ : Type} [DecidableEq κ] (m : GoMap κ Bool) (k : κ) : Bool :=
  (m.lookup k).getD false

/-- The Go type `Store`; the three maps are never nil (see `NewStore`, `LoadStore`). -/
structure Store where
  Notifications : GoMap String Notification
  IgnoredRepos : GoMap String Bool
  Details : GoMap String (Option Details)
deriving DecidableEq

/-- `NewStore` (main.go 76-82). -/
def NewStore : Store :=
  { Notifications := ∅, IgnoredRepos := ∅, Details := ∅ }

/-! ## Environment and world -/

/-- The order in which `for ... := range m` visits a map: some enumeration of its entries. -/
structure RangeOrder (κ ν : Type) where
  order : GoMap κ ν → List (Sigma fun _ : κ => ν)
  complete : ∀ m, (order m).Perm m.entries

/-- Content of the file at `storePath`. -/
inductive File where
  | absent
  | garbled
  | stored (s : Store)
deriving DecidableEq

/-- One cell of a rendered table: plain text, or `text.Hyperlink(url, label)`. -/
inductive Cell where
  | text (s : String)
  | hyperlink (url label : String)
deriving DecidableEq, Repr

/-- One line appended to a table writer: `AppendRow` or `AppendSeparator`. -/
inductive Line where
  | row (cells : List Cell)
  | separator
deriving DecidableEq, Repr

/-- A table handed to `t.Render()`. -/
structure Table where
  header : List String
  lines : List Line
deriving DecidableEq, Repr

/-- What the outside world answers.
* `delete past id`: outcome of `client.Delete("notifications/threads/<id>")` when the
  thread ids in `past` were requested before (`none` is success);
* `resolve past url`: outcome of `client.Get(url, &d)` in `Subject.GetDetails`;
* `fetch`: outcome of `client.Get("notifications", &notifications)`;
* `fsFault k`: failure, if any, of the `k`-th filesystem call of the run
  (for `os.Open`: a failure other than `os.ErrNotExist`);
* `decodeErr`: the error of the JSON decoder on a garbled file;
* the three range orders, one per map type that is iterated. -/
structure Env where
  delete : List String → String → Option Err
  resolve : List String → String → Except Err Details
  fetch : Except Err (List Notification)
  fsFault : Nat → Option Err
  decodeErr : Err
  rangeNotifications : RangeOrder String Notification
  rangeIgnored : RangeOrder String Bool
  rangeGroups : RangeOrder Repository (List Notification)

/-- State outside the in-memory store: the persisted file, the number of filesystem
calls made, the thread ids whose deletion was requested (oldest first), the urls the
resolver requested (oldest first), and the tables drawn on stdout. -/
structure World where
  file : File
  fsCalls : Nat
  deleted : List String
  resolved : List String
  stdout : List Table
deriving DecidableEq

/-- How a command or a rendering ends: `nil` error, a returned error, or a Go panic. -/
inductive Outcome where
  | ok
  | error (e : Err)
  | crash
deriving DecidableEq, Repr

/-- One filesystem call: consult the environment for a fault and count the call. -/
def fsCall (env : Env) (w : World) : World × Option Err :=
  ({ w with fsCalls := w.fsCalls + 1 }, env.fsFault w.fsCalls)

/-! ## Store operations -/

/-- `LoadStore` (main.go 84-118): a missing file gives a fresh store, any other failure
of `os.Open` and any decoding failure is returned. -/
def LoadStore (env : Env) (w : World) : World × Except Err Store :=
  match fsCall env w with
  | (w1, some e) => (w1, .error e)
  | (w1, none) =>
    match w1.file with
    | .absent => (w1, .ok NewStore)
    | .garbled => (w1, .error env.decodeErr)
    | .stored s => (w1, .ok s)

/-- `Store.Dump` (main.go 120-140): `os.MkdirAll`, `os.Create` (which truncates the file),
then the JSON encoder writes the whole store. -/
def Store.Dump (env : Env) (s : Store) (w : World) : World × Option Err :=
  match fsCall env w with
  | (w1, some e) => (w1, some e)
  | (w1, none) =>
    match fsCall env w1 with
    | (w2, some e) => (w2, some e)
    | (w2, none) =>
      match fsCall env { w2 with file := File.garbled } with
      | (w3, some e) => (w3, some e)
      | (w3, none) => ({ w3 with file := File.stored s }, none)

/-- `Subject.GetDetails` (main.go 50-62): one GET of the subject url. -/
def Subject.GetDetails (env : Env) (w : World) (s : Subject) : World × Except Err Details :=
  ({ w with resolved := w.resolved ++ [s.Url] }, env.resolve w.resolved s.Url)

/-- `Store.GetDetails` (main.go 142-156).  The receiver is a copy of the struct, but the
map `Details` is shared with the caller, so the insertion is visible afterwards: the
store is returned. -/
def Store.GetDetails (env : Env) (s : Store) (w : World) (n : Notification) :
    Store × World × Except Err (Option GhNotifications.Details) :=
  match s.Details.lookup n.Id with
  | some d => (s, w, .ok d)
  | none =>
    match n.Subject.GetDetails env w with
    | (w1, .error e) => (s, w1, .error e)
    | (w1, .ok d) => ({ s with Details := s.Details.insert n.Id (some d) }, w1, .ok (some d))

/-- `Store.NotificationsForRepo` (main.go 237-247). -/
def Store.NotificationsForRepo (env : Env) (s : Store) (repo : String) : List Notification :=
  ((env.rangeNotifications.order s.Notifications).map (fun e => e.2)).filter
    (fun n => n.Repository.FullName == repo)

/-- `Store.NotificationsByRepo` (main.go 249-257): `m[k]` of a missing key is the nil slice. -/
def Store.NotificationsByRepo (env : Env) (s : Store) : GoMap Repository (List Notification) :=
  ((env.rangeNotifications.order s.Notifications).map (fun e => e.2)).foldl
    (fun m n => m.insert n.Repository ((m.lookup n.Repository).getD [] ++ [n])) ∅

/-- `Store.Done` (main.go 259-273): the remote deletion first, the local removal only
when it succeeded. -/
def Store.Done (env : Env) (s : Store) (w : World) (n : Notification) :
    Store × World × Option Err :=
  match env.delete w.deleted n.Id with
  | some e => (s, { w with deleted := w.deleted ++ [n.Id] }, some e)
  | none =>
    ({ s with Notifications := s.Notifications.erase n.Id },
      { w with deleted := w.deleted ++ [n.Id] }, none)

/-! ## Rendering -/

/-- `strings.Compare`: byte-wise on UTF-8, which is code-point-wise on the characters. -/
def stringsCompare (a b : String) : Int :=
  if a.toList < b.toList then -1 else if a = b then 0 else 1

/-- The `less` closure of `RenderNotifications` (main.go 190-192). -/
def repoLess (a b : Repository) : Bool :=
  stringsCompare a.FullName b.FullName == -1

/-- Insertion of `x`, which came before every element of the sorted `ys`, keeping it
before the elements it is not greater than. -/
def insertStable {α : Type} (less : α → α → Bool) (x : α) : List α → List α
  | [] => [x]
  | y :: ys => if less y x then y :: insertStable less x ys else x :: y :: ys

/-- `sort.SliceStable`: the stable sort by `less` (unique for a strict weak order). -/
def sortSliceStable {α : Type} (less : α → α → Bool) : List α → List α
  | [] => []
  | x :: xs => insertStable less x (sortSliceStable less xs)

/-- The slice `repos` of `RenderNotifications` after sorting (main.go 184-192). -/
def sortedRepos (env : Env) (byRepo : GoMap Repository (List Notification)) : List Repository :=
  sortSliceStable repoLess ((env.rangeGroups.order byRepo).map (fun e => e.1))

/-- The groups `RenderNotifications` iterates, in order: each repository of the sorted
slice with `notificationsByRepo[repo]` (main.go 182-192, 206-207). -/
def Store.groups (env : Env) (s : Store) : List (Repository × List Notification) :=
  (sortedRepos env (s.NotificationsByRepo env)).map
    (fun repo => (repo, ((s.NotificationsByRepo env).lookup repo).getD []))

/-- The inner loop of `RenderNotifications` (main.go 207-227), from index `i`; a nil
`d` makes `d.HtmlUrl` panic. -/
def renderRows (env : Env) :
    Store → World → List Line → Nat → List Notification → Store × World × Except Outcome (List Line)
  | s, w, t, _, [] => (s, w, .ok t)
  | s, w, t, i, n :: ns =>
    let r := if i = 0 then Cell.hyperlink n.Repository.HtmlUrl n.Repository.FullName
      else Cell.text ""
    match s.GetDetails env w n with
    | (s1, w1, .error e) => (s1, w1, .error (Outcome.error e))
    | (s1, w1, .ok none) => (s1, w1, .error Outcome.crash)
    | (s1, w1, .ok (some d)) =>
      renderRows env s1 w1
        (t ++ [Line.row [r, Cell.hyperlink d.HtmlUrl n.Id, Cell.text n.Subject.Title]]) (i + 1) ns

/-- The outer loop of `RenderNotifications` (main.go 206-230). -/
def renderGroups (env : Env) :
    Store → World → List Line → List (Repository × List Notification) →
      Store × World × Except Outcome (List Line)
  | s, w, t, [] => (s, w, .ok t)
  | s, w, t, g :: gs =>
    match renderRows env s w t 0 g.2 with
    | (s1, w1, .error a) => (s1, w1, .error a)
    | (s1, w1, .ok t1) => renderGroups env s1 w1 (t1 ++ [Line.separator]) gs

/-- `Store.RenderNotifications` (main.go 181-235): the table is drawn by the final
`t.Render()` only. -/
def Store.RenderNotifications (env : Env) (s : Store) (w : World) : Store × World × Outcome :=
  match renderGroups env s w [] (s.groups env) with
  | (s1, w1, .error a) => (s1, w1, a)
  | (s1, w1, .ok t) =>
    (s1, { w1 with stdout := w1.stdout ++ [Table.mk ["Repo", "ID", "Title"] t] }, Outcome.ok)

/-- `Store.RenderIgnoredRepos` (main.go 158-179). -/
def Store.RenderIgnoredRepos (env : Env) (s : Store) (w : World) : World :=
  let repos := sortSliceStable (fun a b => decide (a.toList < b.toList))
    ((env.rangeIgnored.order s.IgnoredRepos).map (fun e => e.1))
  let t : Table := Table.mk ["Ignored Repo"]
    (repos.map (fun repo => Line.row [Cell.hyperlink ("https://github.com/" ++ repo) repo]))
  { w with stdout := w.stdout ++ [t] }

/-! ## Commands -/

/-- The loop of `syncAction` (main.go 302-308); the result of `store.Done(n)` is dropped. -/
def syncLoop (env : Env) : Store → World → List Notification → Store × World
  | s, w, [] => (s, w)
  | s, w, n :: ns =>
    if s.IgnoredRepos.flag n.Repository.FullName then
      match s.Done env w n with
      | (s1, w1, _) => syncLoop env s1 w1 ns
    else
      syncLoop env { s with Notifications := s.Notifications.insert n.Id n } w ns

/-- `listAction` (main.go 317-333); the result of `store.RenderNotifications()` is
dropped, a panic is not. -/
def listAction (env : Env) (w : World) : World × Outcome :=
  match LoadStore env w with
  | (w1, .error e) => (w1, Outcome.error e)
  | (w1, .ok store) =>
    match store.RenderNotifications env w1 with
    | (_, w2, Outcome.crash) => (w2, Outcome.crash)
    | (store2, w2, _) =>
      match store2.Dump env w2 with
      | (w3, some e) => (w3, Outcome.error e)
      | (w3, none) => (w3, Outcome.ok)

/-- `syncAction` (main.go 289-315). -/
def syncAction (env : Env) (w : World) : World × Outcome :=
  match LoadStore env w with
  | (w1, .error e) => (w1, Outcome.error e)
  | (w1, .ok store) =>
    match env.fetch with
    | .error e => (w1, Outcome.error e)
    | .ok notifications =>
      match syncLoop env store w1 notifications with
      | (store2, w2) =>
        match store2.Dump env w2 with
        | (w3, some e) => (w3, Outcome.error e)
        | (w3, none) => listAction env w3

/-- `ignoredAction` (main.go 377-387). -/
def ignoredAction (env : Env) (w : World) : World × Outcome :=
  match LoadStore env w with
  | (w1, .error e) => (w1, Outcome.error e)
  | (w1, .ok store) => (store.RenderIgnoredRepos env w1, Outcome.ok)

/-- The inner loop of `ignoreAction` (main.go 345-349) over an already computed slice. -/
def dismissAll (env : Env) : Store → World → List Notification → Store × World × Option Err
  | s, w, [] => (s, w, none)
  | s, w, n :: ns =>
    match s.Done env w n with
    | (s1, w1, some e) => (s1, w1, some e)
    | (s1, w1, none) => dismissAll env s1 w1 ns

/-- The body of the loop of `ignoreAction` for one name (main.go 343-349): the name is
marked, the slice of its notifications is computed once, then each is dismissed. -/
def ignoreOne (env : Env) (s : Store) (w : World) (repo : String) : Store × World × Option Err :=
  dismissAll env { s with IgnoredRepos := s.IgnoredRepos.insert repo true } w
    (Store.NotificationsForRepo env { s with IgnoredRepos := s.IgnoredRepos.insert repo true } repo)

/-- The loop of `ignoreAction` (main.go 342-350). -/
def ignoreLoop (env : Env) : Store → World → List String → Store × World × Option Err
  | s, w, [] => (s, w, none)
  | s, w, repo :: repos =>
    match ignoreOne env s w repo with
    | (s2, w2, some e) => (s2, w2, some e)
    | (s2, w2, none) => ignoreLoop env s2 w2 repos

/-- `ignoreAction` (main.go 335-357) on the arguments `args`. -/
def ignoreAction (env : Env) (w : World) (args : List String) : World × Outcome :=
  match LoadStore env w with
  | (w1, .error e) => (w1, Outcome.error e)
  | (w1, .ok store) =>
    match ignoreLoop env store w1 args with
    | (_, w2, some e) => (w2, Outcome.error e)
    | (store2, w2, none) =>
      match store2.Dump env w2 with
      | (w3, some e) => (w3, Outcome.error e)
      | (w3, none) => ignoredAction env w3

/-- The loop of `unignoreAction` (main.go 366-368). -/
def unignoreLoop : Store → List String → Store
  | s, [] => s
  | s, repo :: repos => unignoreLoop { s with IgnoredRepos := s.IgnoredRepos.erase repo } repos

/-- `unignoreAction` (main.go 359-375) on the arguments `args`. -/
def unignoreAction (env : Env) (w : World) (args : List String) : World × Outcome :=
  match LoadStore env w with
  | (w1, .error e) => (w1, Outcome.error e)
  | (w1, .ok store) =>
    match (unignoreLoop store args).Dump env w1 with
    | (w2, some e) => (w2, Outcome.error e)
    | (w2, none) => ignoredAction env w2

/-- The loop of `doneAction` (main.go 396-404): each argument is dismissed as the bare
notification `Notification{Id: id}`. -/
def doneLoop (env : Env) : Store → World → List String → Store × World × Option Err
  | s, w, [] => (s, w, none)
  | s, w, id :: ids =>
    match s.Done env w { Id := id, Repository := ⟨"", ""⟩, Subject := ⟨"", ""⟩ } with
    | (s1, w1, some e) => (s1, w1, some e)
    | (s1, w1, none) => doneLoop env s1 w1 ids

/-- `doneAction` (main.go 389-411) on the arguments `args`. -/
def doneAction (env : Env) (w : World) (args : List String) : World × Outcome :=
  match LoadStore env w with
  | (w1, .error e) => (w1, Outcome.error e)
  | (w1, .ok store) =>
    match doneLoop env store w1 args with
    | (_, w2, some e) => (w2, Outcome.error e)
    | (store2, w2, none) =>
      match store2.Dump env w2 with
      | (w3, some e) => (w3, Outcome.error e)
      | (w3, none) => listAction env w3

/-! ## Runs and predicates the statements are about -/

/-- Consecutive calls of `Store.GetDetails` on one store, each carried out whatever the
previous ones returned; the third component lists, oldest first, the ids of the calls in
which the resolver was invoked (the world records one more request) and succeeded. -/
def getDetailsRun (env : Env) : Store → World → List Notification → Store × World × List String
  | s, w, [] => (s, w, [])
  | s, w, n :: ns =>
    match s.GetDetails env w n with
    | (s1, w1, Except.ok _) =>
      match getDetailsRun env s1 w1 ns with
      | (s2, w2, ids) =>
        (s2, w2, if w1.resolved.length = w.resolved.length then ids else n.Id :: ids)
    | (s1, w1, Except.error _) => getDetailsRun env s1 w1 ns

/-- Every entry of `Notifications` is stored under the key equal to its own `Id`. -/
def Store.KeyedById (s : Store) : Prop :=
  ∀ (k : String) (v : Notification), s.Notifications.lookup k = some v → v.Id = k

/-- No entry of `Notifications` belongs to a suppressed repository. -/
def Store.NoSuppressed (s : Store) : Prop :=
  ∀ (k : String) (v : Notification), s.Notifications.lookup k = some v →
    s.IgnoredRepos.flag v.Repository.FullName = false

/-- Every group of the map is non-empty and holds notifications of its key only. -/
def GroupsSound (m : GoMap Repository (List Notification)) : Prop :=
  ∀ (r : Repository) (g : List Notification), m.lookup r = some g →
    g ≠ [] ∧ ∀ n ∈ g, n.Repository = r

/-! ## Concrete data used to exercise the statements -/

/-- The range order that visits a map in the order of its representation. -/
def RangeOrder.asStored (κ ν : Type) : RangeOrder κ ν :=
  ⟨fun m => m.entries, fun _ => List.Perm.refl _⟩

/-- An environment in which every remote and filesystem call succeeds. -/
def calmEnv : Env :=
  { delete := fun _ _ => none
    resolve := fun _ url => Except.ok ⟨url⟩
    fetch := Except.ok []
    fsFault := fun _ => none
    decodeErr := "invalid character"
    rangeNotifications := RangeOrder.asStored String Notification
    rangeIgnored := RangeOrder.asStored String Bool
    rangeGroups := RangeOrder.asStored Repository (List Notification) }

/-- A world with no persisted file and nothing requested or printed yet. -/
def freshWorld : World :=
  { file := File.absent, fsCalls := 0, deleted := [], resolved := [], stdout := [] }

/-- Notification "1" of repository a/b. -/
def note1 : Notification :=
  { Id := "1", Repository := ⟨"a/b", "https://github.com/a/b"⟩, Subject := ⟨"first", "u1"⟩ }

/-- Notification "5" of repository x/y. -/
def note5 : Notification :=
  { Id := "5", Repository := ⟨"x/y", "https://github.com/x/y"⟩, Subject := ⟨"fifth", "u5"⟩ }

/-- Notification "6" of repository a/b. -/
def note6 : Notification :=
  { Id := "6", Repository := ⟨"a/b", "https://github.com/a/b"⟩, Subject := ⟨"sixth", "u6"⟩ }

/-- The store holding notification "1" and suppressing x/y. -/
def storeA : Store :=
  { Notifications := (∅ : GoMap String Notification).insert "1" note1
    IgnoredRepos := (∅ : GoMap String Bool).insert "x/y" true
    Details := ∅ }

/-- An environment whose remote refuses every deletion request. -/
def refusingEnv : Env :=
  { calmEnv with delete := fun _ _ => some "502 Bad Gateway" }

/-- An environment whose remote refuses the deletion of thread "5" only and delivers the
notifications "5" (of x/y) and "6" (of a/b). -/
def refusingFiveEnv : Env :=
  { calmEnv with
    delete := fun _ id => if id = "5" then some "502 Bad Gateway" else none
    fetch := Except.ok [note5, note6] }

/-- An environment in which resolving the details of a subject always fails. -/
def unresolvingEnv : Env :=
  { calmEnv with resolve := fun _ _ => Except.error "503 Service Unavailable" }

/-- The world in which `storeA` is the persisted store. -/
def worldA : World :=
  { file := File.stored storeA, fsCalls := 0, deleted := [], resolved := [], stdout := [] }

end GhNotifications

namespace GhNotifications

/-! ## Basic facts about `Store.Done` and Go maps -/

theorem GoMap.erase_absent {κ ν : Type} [DecidableEq κ] (m : GoMap κ ν) (k : κ) (h : k ∉ m) :
    m.erase k = m := by
  apply AList.ext
  exact List.kerase_of_not_mem_keys h

theorem GoMap.lookup_erase_some {κ ν : Type} [DecidableEq κ] {m : GoMap κ ν} {k a : κ} {v : ν}
    (h : (m.erase a).lookup k = some v) : m.lookup k = some v := by
  by_cases hk : k = a
  · subst hk
    rw [AList.lookup_erase] at h
    cases h
  · rwa [AList.lookup_erase_ne hk] at h

theorem Done_deleted (env : Env) (s : Store) (w : World) (n : Notification) :
    (s.Done env w n).2.1.deleted = w.deleted ++ [n.Id] := by
  unfold Store.Done
  cases env.delete w.deleted n.Id <;> rfl

theorem Done_ignored (env : Env) (s : Store) (w : World) (n : Notification) :
    (s.Done env w n).1.IgnoredRepos = s.IgnoredRepos := by
  unfold Store.Done
  cases env.delete w.deleted n.Id <;> rfl

theorem Done_details (env : Env) (s : Store) (w : World) (n : Notification) :
    (s.Done env w n).1.Details = s.Details := by
  unfold Store.Done
  cases env.delete w.deleted n.Id <;> rfl

theorem Done_notifications (env : Env) (s : Store) (w : World) (n : Notification) :
    (s.Done env w n).1.Notifications = s.Notifications ∨
      (s.Done env w n).1.Notifications = s.Notifications.erase n.Id := by
  unfold Store.Done
  cases env.delete w.deleted n.Id
  · exact Or.inr rfl
  · exact Or.inl rfl

theorem Done_lookup_some (env : Env) (s : Store) (w : World) (n : Notification) {k : String}
    {v : Notification} (h : (s.Done env w n).1.Notifications.lookup k = some v) :
    s.Notifications.lookup k = some v := by
  rcases Done_notifications env s w n with h1 | h1
  · rwa [h1] at h
  · rw [h1] at h
    exact GoMap.lookup_erase_some h

theorem Done_lookup_ne (env : Env) (s : Store) (w : World) (n : Notification) {k : String}
    (hk : k ≠ n.Id) :
    (s.Done env w n).1.Notifications.lookup k = s.Notifications.lookup k := by
  rcases Done_notifications env s w n with h1 | h1
  · rw [h1]
  · rw [h1, AList.lookup_erase_ne hk]

/-! ## The sync loop -/

theorem syncLoop_cons_ignored (env : Env) (s : Store) (w : World) (n : Notification)
    (ns : List Notification) (h : s.IgnoredRepos.flag n.Repository.FullName = true) :
    syncLoop env s w (n :: ns) = syncLoop env (s.Done env w n).1 (s.Done env w n).2.1 ns := by
  simp [syncLoop, h]

theorem syncLoop_cons_fresh (env : Env) (s : Store) (w : World) (n : Notification)
    (ns : List Notification) (h : s.IgnoredRepos.flag n.Repository.FullName = false) :
    syncLoop env s w (n :: ns) =
      syncLoop env { s with Notifications := s.Notifications.insert n.Id n } w ns := by
  simp [syncLoop, h]

theorem syncLoop_ignored (env : Env) (batch : List Notification) :
    ∀ (s : Store) (w : World), (syncLoop env s w batch).1.IgnoredRepos = s.IgnoredRepos := by
  induction batch with
  | nil => intro s w; rfl
  | cons n ns ih =>
    intro s w
    cases h : s.IgnoredRepos.flag n.Repository.FullName
    · rw [syncLoop_cons_fresh env s w n ns h, ih]
    · rw [syncLoop_cons_ignored env s w n ns h, ih, Done_ignored]

theorem syncLoop_deleted_mono (env : Env) (batch : List Notification) :
    ∀ (s : Store) (w : World) (x : String), x ∈ w.deleted →
      x ∈ (syncLoop env s w batch).2.deleted := by
  induction batch with
  | nil => intro s w x hx; exact hx
  | cons n ns ih =>
    intro s w x hx
    cases h : s.IgnoredRepos.flag n.Repository.FullName
    · rw [syncLoop_cons_fresh env s w n ns h]
      exact ih _ _ x hx
    · rw [syncLoop_cons_ignored env s w n ns h]
      apply ih
      rw [Done_deleted]
      exact List.mem_append_left _ hx

theorem syncLoop_requests (env : Env) (batch : List Notification) :
    ∀ (s : Store) (w : World) (n : Notification), n ∈ batch →
      s.IgnoredRepos.flag n.Repository.FullName = true →
      n.Id ∈ (syncLoop env s w batch).2.deleted := by
  induction batch with
  | nil => intro s w n hn; cases hn
  | cons m ms ih =>
    intro s w n hn hflag
    cases h : s.IgnoredRepos.flag m.Repository.FullName
    · rw [syncLoop_cons_fresh env s w m ms h]
      rcases List.mem_cons.1 hn with rfl | hn
      · rw [h] at hflag; cases hflag
      · exact ih _ _ n hn hflag
    · rw [syncLoop_cons_ignored env s w m ms h]
      rcases List.mem_cons.1 hn with rfl | hn
      · apply syncLoop_deleted_mono
        rw [Done_deleted]
        simp
      · apply ih _ _ n hn
        rw [Done_ignored]
        exact hflag

theorem syncLoop_suppressed_old (env : Env) (batch : List Notification) :
    ∀ (s : Store) (w : World) (k : String) (v : Notification),
      (syncLoop env s w batch).1.Notifications.lookup k = some v →
      s.IgnoredRepos.flag v.Repository.FullName = true →
      s.Notifications.lookup k = some v := by
  induction batch with
  | nil => intro s w k v h _; exact h
  | cons n ns ih =>
    intro s w k v hv hflag
    cases h : s.IgnoredRepos.flag n.Repository.FullName
    · rw [syncLoop_cons_fresh env s w n ns h] at hv
      have h1 := ih _ _ k v hv hflag
      by_cases hk : k = n.Id
      · subst hk
        rw [AList.lookup_insert] at h1
        cases h1
        rw [h] at hflag
        cases hflag
      · simpa [AList.lookup_insert_ne hk] using h1
    · rw [syncLoop_cons_ignored env s w n ns h] at hv
      have h1 := ih _ _ k v hv (by rw [Done_ignored]; exact hflag)
      exact Done_lookup_some env s w n h1

theorem syncLoop_lookup_other (env : Env) (batch : List Notification) :
    ∀ (s : Store) (w : World) (k : String), (∀ n ∈ batch, n.Id ≠ k) →
      (syncLoop env s w batch).1.Notifications.lookup k = s.Notifications.lookup k := by
  induction batch with
  | nil => intro s w k _; rfl
  | cons n ns ih =>
    intro s w k hb
    have hk : k ≠ n.Id := fun e => hb n (List.mem_cons_self _ _) e.symm
    have hb2 : ∀ m ∈ ns, m.Id ≠ k := fun m hm => hb m (List.mem_cons_of_mem _ hm)
    cases h : s.IgnoredRepos.flag n.Repository.FullName
    · rw [syncLoop_cons_fresh env s w n ns h, ih _ _ k hb2]
      exact AList.lookup_insert_ne hk
    · rw [syncLoop_cons_ignored env s w n ns h, ih _ _ k hb2]
      exact Done_lookup_ne env s w n hk

/-- With per-id outcomes of the deletion call, the loop acts on each key either as the
identity or as a constant. -/
theorem syncLoop_lookup_shape (env : Env)
    (hfix : ∀ (p q : List String) (id : String), env.delete p id = env.delete q id)
    (ign : GoMap String Bool) (k : String) (batch : List Notification) :
    (∀ (s : Store) (w : World), s.IgnoredRepos = ign →
        (syncLoop env s w batch).1.Notifications.lookup k = s.Notifications.lookup k) ∨
    (∃ c, ∀ (s : Store) (w : World), s.IgnoredRepos = ign →
        (syncLoop env s w batch).1.Notifications.lookup k = c) := by
  induction batch with
  | nil => exact Or.inl (fun s w _ => rfl)
  | cons n ns ih =>
    cases h : ign.flag n.Repository.FullName
    · -- the notification is written
      rcases ih with ih | ⟨c, ih⟩
      · by_cases hk : k = n.Id
        · refine Or.inr ⟨some n, fun s w hs => ?_⟩
          rw [syncLoop_cons_fresh env s w n ns (by rw [hs]; exact h)]
          rw [ih { s with Notifications := s.Notifications.insert n.Id n } w hs, hk]
          exact AList.lookup_insert _
        · refine Or.inl (fun s w hs => ?_)
          rw [syncLoop_cons_fresh env s w n ns (by rw [hs]; exact h)]
          rw [ih { s with Notifications := s.Notifications.insert n.Id n } w hs]
          exact AList.lookup_insert_ne hk
      · refine Or.inr ⟨c, fun s w hs => ?_⟩
        rw [syncLoop_cons_fresh env s w n ns (by rw [hs]; exact h)]
        exact ih { s with Notifications := s.Notifications.insert n.Id n } w hs
    · -- the notification is dismissed
      rcases ih with ih | ⟨c, ih⟩
      · cases hd : env.delete [] n.Id with
        | some e =>
          refine Or.inl (fun s w hs => ?_)
          rw [syncLoop_cons_ignored env s w n ns (by rw [hs]; exact h),
            ih _ _ (by rw [Done_ignored]; exact hs)]
          have : env.delete w.deleted n.Id = some e := by rw [hfix w.deleted [] n.Id, hd]
          simp [Store.Done, this]
        | none =>
          by_cases hk : k = n.Id
          · refine Or.inr ⟨none, fun s w hs => ?_⟩
            rw [syncLoop_cons_ignored env s w n ns (by rw [hs]; exact h),
              ih _ _ (by rw [Done_ignored]; exact hs)]
            have : env.delete w.deleted n.Id = none := by rw [hfix w.deleted [] n.Id, hd]
            simp only [Store.Done, this]
            rw [hk]
            exact AList.lookup_erase n.Id s.Notifications
          · refine Or.inl (fun s w hs => ?_)
            rw [syncLoop_cons_ignored env s w n ns (by rw [hs]; exact h),
              ih _ _ (by rw [Done_ignored]; exact hs)]
            exact Done_lookup_ne env s w n hk
      · refine Or.inr ⟨c, fun s w hs => ?_⟩
        rw [syncLoop_cons_ignored env s w n ns (by rw [hs]; exact h)]
        exact ih _ _ (by rw [Done_ignored]; exact hs)

/-! ## Claims about the sync loop and `Store.Done` -/

/-- C1 (suppression precedence in sync): for every environment, store, world and batch,
every batch notification of a suppressed repository has a deletion request for its id
among the requests issued by the end of the sync loop, and every entry of
`Notifications` after the loop whose repository is suppressed was present under the
same key with the same value before the loop. -/
theorem sync_suppression_precedence (env : Env) (s : Store) (w : World)
    (batch : List Notification) :
    (∀ n ∈ batch, s.IgnoredRepos.flag n.Repository.FullName = true →
        n.Id ∈ (syncLoop env s w batch).2.deleted) ∧
    (∀ (k : String) (v : Notification),
        (syncLoop env s w batch).1.Notifications.lookup k = some v →
        s.IgnoredRepos.flag v.Repository.FullName = true →
        s.Notifications.lookup k = some v) :=
  ⟨fun n hn hf => syncLoop_requests env batch s w n hn hf,
    fun k v hv hf => syncLoop_suppressed_old env batch s w k v hv hf⟩

end GhNotifications

namespace GhNotifications

/-- Witness of C1: with x/y suppressed and the batch holding notification "5" of x/y,
the deletion of "5" is requested. -/
theorem sync_suppression_precedence_witness :
    "5" ∈ (syncLoop calmEnv storeA freshWorld [note5]).2.deleted :=
  (sync_suppression_precedence calmEnv storeA freshWorld [note5]).1 note5
    (List.mem_singleton_self _) (by decide)

/-- C2 (non-mirroring): if the store holds `A` under the key `A.Id` and no element of
the batch has that id, then after the sync loop, whatever the remote answers,
`Notifications[A.Id]` is still `A`. -/
theorem sync_non_mirroring (env : Env) (s : Store) (w : World) (batch : List Notification)
    (A : Notification) (hA : s.Notifications.lookup A.Id = some A)
    (hbatch : ∀ n ∈ batch, n.Id ≠ A.Id) :
    (syncLoop env s w batch).1.Notifications.lookup A.Id = some A := by
  rw [syncLoop_lookup_other env batch s w A.Id hbatch]
  exact hA

/-- Witness of C2: notification "1" survives a sync of the batch "5", "6". -/
theorem sync_non_mirroring_witness :
    (syncLoop calmEnv storeA freshWorld [note5, note6]).1.Notifications.lookup "1" = some note1 :=
  sync_non_mirroring calmEnv storeA freshWorld [note5, note6] note1 (by decide) (by decide)

/-- C3 (idempotent upsert): when the outcome of the deletion call depends on the thread
id only, running the sync loop a second time on the same batch, from the store and the
world the first run left, gives the same `Notifications` map as the first run: the same
value (or absence) under every key, hence the same entries. -/
theorem sync_idempotent (env : Env)
    (hfix : ∀ (p q : List String) (id : String), env.delete p id = env.delete q id)
    (s : Store) (w : World) (batch : List Notification) :
    (∀ k : String,
      (syncLoop env (syncLoop env s w batch).1 (syncLoop env s w batch).2 batch).1.Notifications.lookup k
        = (syncLoop env s w batch).1.Notifications.lookup k) ∧
    (syncLoop env (syncLoop env s w batch).1 (syncLoop env s w batch).2 batch).1.Notifications.entries.Perm
      (syncLoop env s w batch).1.Notifications.entries := by
  have key : ∀ k : String,
      (syncLoop env (syncLoop env s w batch).1 (syncLoop env s w batch).2 batch).1.Notifications.lookup k
        = (syncLoop env s w batch).1.Notifications.lookup k := by
    intro k
    rcases syncLoop_lookup_shape env hfix s.IgnoredRepos k batch with h | ⟨c, h⟩
    · exact h _ _ (syncLoop_ignored env batch s w)
    · rw [h _ _ (syncLoop_ignored env batch s w), h s w rfl]
  refine ⟨key, ?_⟩
  apply List.lookup_ext (AList.nodupKeys _) (AList.nodupKeys _)
  intro x y
  have := key x
  unfold AList.lookup at this
  rw [this]

/-- Witness of C3: a batch with a suppressed notification, a fresh one and a repeated id. -/
theorem sync_idempotent_witness :
    (syncLoop calmEnv (syncLoop calmEnv storeA freshWorld [note5, note6, note6]).1
      (syncLoop calmEnv storeA freshWorld [note5, note6, note6]).2
      [note5, note6, note6]).1.Notifications.lookup "6"
    = (syncLoop calmEnv storeA freshWorld [note5, note6, note6]).1.Notifications.lookup "6" :=
  (sync_idempotent calmEnv (fun _ _ _ => rfl) storeA freshWorld [note5, note6, note6]).1 "6"

/-- C4 (dismiss removes locally only on remote success): if the deletion request for
`n.Id` fails with `e`, `Store.Done` returns `e` and leaves the store as it was (the
request is recorded in the world); if it succeeds, `Done` returns no error,
`Notifications` is the previous map with the key `n.Id` erased (the previous map itself
when the key was absent), and `IgnoredRepos` and `Details` are unchanged. -/
theorem done_removes_only_on_success (env : Env) (s : Store) (w : World) (n : Notification) :
    (∀ e : Err, env.delete w.deleted n.Id = some e →
      (s.Done env w n).2.2 = some e ∧ (s.Done env w n).1 = s ∧
      (s.Done env w n).1.Notifications.lookup n.Id = s.Notifications.lookup n.Id) ∧
    (env.delete w.deleted n.Id = none →
      (s.Done env w n).2.2 = none ∧
      (s.Done env w n).1.Notifications = s.Notifications.erase n.Id ∧
      (n.Id ∉ s.Notifications → (s.Done env w n).1.Notifications = s.Notifications) ∧
      (s.Done env w n).1.IgnoredRepos = s.IgnoredRepos ∧
      (s.Done env w n).1.Details = s.Details) ∧
    (s.Done env w n).2.1.deleted = w.deleted ++ [n.Id] := by
  refine ⟨?_, ?_, Done_deleted env s w n⟩
  · intro e he
    simp [Store.Done, he]
  · intro he
    refine ⟨?_, ?_, ?_, ?_, ?_⟩ <;> simp only [Store.Done, he]
    intro habs
    exact GoMap.erase_absent _ _ habs

/-- Witness of C4: the deletion of "1" fails, and notification "1" stays in the store. -/
theorem done_removes_only_on_success_witness :
    (storeA.Done refusingEnv freshWorld note1).1.Notifications.lookup "1" = some note1 :=
  ((done_removes_only_on_success refusingEnv storeA freshWorld note1).1
    "502 Bad Gateway" rfl).2.2.trans (by decide)

end GhNotifications

namespace GhNotifications

/-! ## The detail cache -/

theorem GetDetails_cached (env : Env) (s : Store) (w : World) (n : Notification)
    (d : Option Details) (h : s.Details.lookup n.Id = some d) :
    s.GetDetails env w n = (s, w, Except.ok d) := by
  simp [Store.GetDetails, h]

theorem GetDetails_keeps (env : Env) (s : Store) (w : World) (n : Notification) (k : String)
    (d : Option Details) (h : s.Details.lookup k = some d) :
    (s.GetDetails env w n).1.Details.lookup k = some d := by
  unfold Store.GetDetails
  cases hn : s.Details.lookup n.Id with
  | some c => exact h
  | none =>
    simp only [Subject.GetDetails]
    cases env.resolve w.resolved n.Subject.Url with
    | error e => exact h
    | ok c =>
      have hk : k ≠ n.Id := by
        intro e
        rw [e, hn] at h
        cases h
      simp only [AList.lookup_insert_ne hk]
      exact h

theorem GetDetails_records (env : Env) (s : Store) (w : World) (n : Notification)
    (d : Option Details) (h : (s.GetDetails env w n).2.2 = Except.ok d) :
    (s.GetDetails env w n).1.Details.lookup n.Id = some d := by
  unfold Store.GetDetails at h ⊢
  cases hn : s.Details.lookup n.Id with
  | some c =>
    rw [hn] at h
    simp only [Except.ok.injEq] at h
    subst h
    exact hn
  | none =>
    rw [hn] at h
    simp only [Subject.GetDetails] at h ⊢
    cases hr : env.resolve w.resolved n.Subject.Url with
    | error e => rw [hr] at h; cases h
    | ok c =>
      rw [hr] at h
      simp only [Except.ok.injEq] at h
      subst h
      exact AList.lookup_insert _

/-- A call that invoked the resolver found no cached record for its id. -/
theorem GetDetails_resolved_absent (env : Env) (s : Store) (w : World) (n : Notification)
    (h : (s.GetDetails env w n).2.1.resolved.length ≠ w.resolved.length) :
    s.Details.lookup n.Id = none := by
  cases hn : s.Details.lookup n.Id with
  | none => rfl
  | some c =>
    rw [GetDetails_cached env s w n c hn] at h
    exact absurd rfl h

theorem getDetailsRun_keeps (env : Env) (ns : List Notification) :
    ∀ (s : Store) (w : World) (k : String) (d : Option Details),
      s.Details.lookup k = some d →
      (getDetailsRun env s w ns).1.Details.lookup k = some d := by
  induction ns with
  | nil => intro s w k d h; exact h
  | cons n ns ih =>
    intro s w k d h
    have h1 := GetDetails_keeps env s w n k d h
    unfold getDetailsRun
    rcases hg : s.GetDetails env w n with ⟨s1, w1, r⟩
    rw [hg] at h1
    cases r with
    | ok c => exact ih s1 w1 k d h1
    | error e => exact ih s1 w1 k d h1

/-- The ids for which a run resolved a record had none cached when the run began. -/
theorem getDetailsRun_ids_absent (env : Env) (ns : List Notification) :
    ∀ (s : Store) (w : World) (id : String), id ∈ (getDetailsRun env s w ns).2.2 →
      s.Details.lookup id = none := by
  induction ns with
  | nil => intro s w id h; cases h
  | cons n ns ih =>
    intro s w id h
    have keep := GetDetails_keeps env s w n id
    have absent := GetDetails_resolved_absent env s w n
    unfold getDetailsRun at h
    rcases hg : s.GetDetails env w n with ⟨s1, w1, r⟩
    rw [hg] at h keep absent
    have later : id ∈ (getDetailsRun env s1 w1 ns).2.2 → s.Details.lookup id = none := by
      intro hid
      have h1 := ih s1 w1 id hid
      cases hs : s.Details.lookup id with
      | none => rfl
      | some d =>
        rw [keep d hs] at h1
        cases h1
    cases r with
    | error e => exact later h
    | ok c =>
      simp only at h
      split at h
      · exact later h
      · next hlen =>
        rcases List.mem_cons.1 h with rfl | h
        · exact absent hlen
        · exact later h

theorem getDetailsRun_nodup (env : Env) (ns : List Notification) :
    ∀ (s : Store) (w : World), (getDetailsRun env s w ns).2.2.Nodup := by
  induction ns with
  | nil => intro s w; exact List.nodup_nil
  | cons n ns ih =>
    intro s w
    have records := GetDetails_records env s w n
    have nod := ih
    have absent := getDetailsRun_ids_absent env ns
    unfold getDetailsRun
    rcases hg : s.GetDetails env w n with ⟨s1, w1, r⟩
    rw [hg] at records
    cases r with
    | error e => exact ih s1 w1
    | ok c =>
      simp only
      split
      · exact ih s1 w1
      · refine List.nodup_cons.2 ⟨?_, ih s1 w1⟩
        intro hmem
        have h1 := absent s1 w1 n.Id hmem
        rw [records c rfl] at h1
        cases h1

/-- C7 (detail cache monotonicity): if `Store.GetDetails` for `n` succeeds with record
`d`, then after any further calls of `GetDetails` on that store, a call for a
notification with the same id returns `d` again, leaves the store (so `Details`) as it
is and issues no resolver request (the world is unchanged); and in any run of
`GetDetails` calls no id occurs twice among the calls whose resolver invocation
succeeded. -/
theorem details_cache_monotone (env : Env) (s : Store) (w : World) (n : Notification)
    (d : Option Details) (hok : (s.GetDetails env w n).2.2 = Except.ok d) :
    (∀ (ns : List Notification) (m : Notification), m.Id = n.Id →
      (getDetailsRun env (s.GetDetails env w n).1 (s.GetDetails env w n).2.1 ns).1.GetDetails env
          (getDetailsRun env (s.GetDetails env w n).1 (s.GetDetails env w n).2.1 ns).2.1 m
        = ((getDetailsRun env (s.GetDetails env w n).1 (s.GetDetails env w n).2.1 ns).1,
           (getDetailsRun env (s.GetDetails env w n).1 (s.GetDetails env w n).2.1 ns).2.1,
           Except.ok d)) ∧
    (∀ ns : List Notification, (getDetailsRun env s w ns).2.2.Nodup) := by
  refine ⟨?_, fun ns => getDetailsRun_nodup env ns s w⟩
  intro ns m hm
  apply GetDetails_cached
  rw [hm]
  exact getDetailsRun_keeps env ns _ _ n.Id d (GetDetails_records env s w n d hok)

/-- Witness of C7: the details of notification "1" are resolved once; a second call,
after a call for "6", gives the same record. -/
theorem details_cache_monotone_witness :
    (getDetailsRun calmEnv (storeA.GetDetails calmEnv freshWorld note1).1
        (storeA.GetDetails calmEnv freshWorld note1).2.1 [note6]).1.GetDetails calmEnv
      (getDetailsRun calmEnv (storeA.GetDetails calmEnv freshWorld note1).1
        (storeA.GetDetails calmEnv freshWorld note1).2.1 [note6]).2.1 note1
    = ((getDetailsRun calmEnv (storeA.GetDetails calmEnv freshWorld note1).1
        (storeA.GetDetails calmEnv freshWorld note1).2.1 [note6]).1,
       (getDetailsRun calmEnv (storeA.GetDetails calmEnv freshWorld note1).1
        (storeA.GetDetails calmEnv freshWorld note1).2.1 [note6]).2.1,
       Except.ok (some ⟨"u1"⟩)) :=
  (details_cache_monotone calmEnv storeA freshWorld note1 (some ⟨"u1"⟩) rfl).1
    [note6] note1 rfl

/-! ## Dropped errors -/

/-- C5, evaluated: x/y is suppressed, the batch is "5" (of x/y) then "6", and the remote
refuses to delete "5".  `syncAction` ends without error, notification "6" after the
failed dismissal is stored, and the store file is rewritten with it. -/
theorem syncAction_continues_after_failed_dismissal :
    (storeA.Done refusingFiveEnv { worldA with fsCalls := 1 } note5).2.2
      = some "502 Bad Gateway" ∧
    (syncAction refusingFiveEnv worldA).2 = Outcome.ok ∧
    (syncAction refusingFiveEnv worldA).1.deleted = ["5"] ∧
    (syncAction refusingFiveEnv worldA).1.file = File.stored
      { Notifications := ((∅ : GoMap String Notification).insert "1" note1).insert "6" note6
        IgnoredRepos := (∅ : GoMap String Bool).insert "x/y" true
        Details := ((∅ : GoMap String (Option Details)).insert "6" (some ⟨"u6"⟩)).insert "1"
          (some ⟨"u1"⟩) } ∧
    (syncAction refusingFiveEnv worldA).1.file ≠ worldA.file := by
  refine ⟨by decide, by decide, by decide, rfl, ?_⟩
  intro h
  have h6 := congrArg
    (fun f : File => match f with
      | File.stored s => s.Notifications.lookup "6"
      | _ => none) h
  revert h6
  decide

/-- C8, evaluated: the store holds notification "1" and resolving its details fails.
`RenderNotifications` returns the error and draws nothing, and `listAction` reports
success. -/
theorem listAction_drops_render_error :
    (storeA.RenderNotifications unresolvingEnv { worldA with fsCalls := 1 }).2.2
      = Outcome.error "503 Service Unavailable" ∧
    (storeA.RenderNotifications unresolvingEnv { worldA with fsCalls := 1 }).2.1.stdout = [] ∧
    (listAction unresolvingEnv worldA).2 = Outcome.ok ∧
    (listAction unresolvingEnv worldA).1.stdout = [] := by
  decide

end GhNotifications

namespace GhNotifications

/-! ## The ignore loop -/

theorem dismissAll_cons_ok (env : Env) (s : Store) (w : World) (n : Notification)
    (ns : List Notification) (h : env.delete w.deleted n.Id = none) :
    dismissAll env s w (n :: ns) =
      dismissAll env { s with Notifications := s.Notifications.erase n.Id }
        { w with deleted := w.deleted ++ [n.Id] } ns := by
  simp [dismissAll, Store.Done, h]

theorem dismissAll_cons_fail (env : Env) (s : Store) (w : World) (n : Notification)
    (ns : List Notification) (e : Err) (h : env.delete w.deleted n.Id = some e) :
    dismissAll env s w (n :: ns) = (s, { w with deleted := w.deleted ++ [n.Id] }, some e) := by
  simp [dismissAll, Store.Done, h]

/-- What a completed run of dismissals did. -/
theorem dismissAll_ok (env : Env) (ns : List Notification) :
    ∀ (s : Store) (w : World), (dismissAll env s w ns).2.2 = none →
      (∀ k : String, (dismissAll env s w ns).1.Notifications.lookup k =
        if k ∈ ns.map (fun n => n.Id) then none else s.Notifications.lookup k) ∧
      (dismissAll env s w ns).1.IgnoredRepos = s.IgnoredRepos ∧
      (dismissAll env s w ns).1.Details = s.Details ∧
      (dismissAll env s w ns).2.1.deleted = w.deleted ++ ns.map (fun n => n.Id) := by
  induction ns with
  | nil => intro s w _; simp [dismissAll]
  | cons n ns ih =>
    intro s w h
    cases hd : env.delete w.deleted n.Id with
    | some e =>
      rw [dismissAll_cons_fail env s w n ns e hd] at h
      cases h
    | none =>
      rw [dismissAll_cons_ok env s w n ns hd] at h ⊢
      obtain ⟨h1, h2, h3, h4⟩ := ih _ _ h
      refine ⟨?_, h2, h3, ?_⟩
      · intro k
        rw [h1 k]
        by_cases hk : k = n.Id
        · subst hk
          simp [AList.lookup_erase]
        · simp only [List.map_cons, List.mem_cons, hk, false_or]
          rw [AList.lookup_erase_ne hk]
      · rw [h4]
        simp

/-- Where a failed run of dismissals stopped. -/
theorem dismissAll_fail (env : Env) (ns : List Notification) :
    ∀ (s : Store) (w : World) (e : Err), (dismissAll env s w ns).2.2 = some e →
      ∃ (done : List Notification) (n : Notification) (rest : List Notification),
        ns = done ++ n :: rest ∧
        (dismissAll env s w done).2.2 = none ∧
        env.delete (dismissAll env s w done).2.1.deleted n.Id = some e ∧
        dismissAll env s w ns =
          ((dismissAll env s w done).1,
            { (dismissAll env s w done).2.1 with
              deleted := (dismissAll env s w done).2.1.deleted ++ [n.Id] },
            some e) := by
  induction ns with
  | nil => intro s w e h; simp [dismissAll] at h
  | cons n ns ih =>
    intro s w e h
    cases hd : env.delete w.deleted n.Id with
    | some e1 =>
      rw [dismissAll_cons_fail env s w n ns e1 hd] at h
      simp only [Option.some.injEq] at h
      subst h
      exact ⟨[], n, ns, rfl, rfl, hd, dismissAll_cons_fail env s w n ns e1 hd⟩
    | none =>
      rw [dismissAll_cons_ok env s w n ns hd] at h
      obtain ⟨done, m, rest, h1, h2, h3, h4⟩ := ih _ _ e h
      refine ⟨n :: done, m, rest, by rw [h1]; rfl, ?_, ?_, ?_⟩
      · rw [dismissAll_cons_ok env s w n done hd]; exact h2
      · rw [dismissAll_cons_ok env s w n done hd]; exact h3
      · rw [dismissAll_cons_ok env s w n ns hd, dismissAll_cons_ok env s w n done hd]; exact h4

theorem dismissAll_world (env : Env) (ns : List Notification) :
    ∀ (s : Store) (w : World),
      (dismissAll env s w ns).2.1.file = w.file ∧
      (dismissAll env s w ns).2.1.fsCalls = w.fsCalls ∧
      (dismissAll env s w ns).2.1.stdout = w.stdout := by
  induction ns with
  | nil => intro s w; simp [dismissAll]
  | cons n ns ih =>
    intro s w
    cases hd : env.delete w.deleted n.Id with
    | some e => rw [dismissAll_cons_fail env s w n ns e hd]; simp
    | none => rw [dismissAll_cons_ok env s w n ns hd]; exact ih _ _

theorem mem_NotificationsForRepo (env : Env) (s : Store) (repo : String) (n : Notification) :
    n ∈ s.NotificationsForRepo env repo ↔
      (∃ k : String, s.Notifications.lookup k = some n) ∧ n.Repository.FullName = repo := by
  unfold Store.NotificationsForRepo
  simp only [List.mem_filter, List.mem_map, beq_iff_eq]
  constructor
  · rintro ⟨⟨e, he, rfl⟩, hr⟩
    refine ⟨⟨e.1, ?_⟩, hr⟩
    have hm : e ∈ s.Notifications.entries := (env.rangeNotifications.complete _).mem_iff.1 he
    exact AList.mem_lookup_iff.2 hm
  · rintro ⟨⟨k, hk⟩, hr⟩
    refine ⟨⟨⟨k, n⟩, ?_, rfl⟩, hr⟩
    exact (env.rangeNotifications.complete _).mem_iff.2 (AList.mem_lookup_iff.1 hk)

theorem mem_ids_NotificationsForRepo (env : Env) (s : Store) (hkey : s.KeyedById)
    (repo : String) (id : String) :
    id ∈ (s.NotificationsForRepo env repo).map (fun n => n.Id) ↔
      ∃ v : Notification, s.Notifications.lookup id = some v ∧ v.Repository.FullName = repo := by
  simp only [List.mem_map, mem_NotificationsForRepo]
  constructor
  · rintro ⟨n, ⟨⟨k, hk⟩, hr⟩, rfl⟩
    have := hkey k n hk
    subst this
    exact ⟨n, hk, hr⟩
  · rintro ⟨v, hv, hr⟩
    exact ⟨v, ⟨⟨id, hv⟩, hr⟩, hkey id v hv⟩

theorem nodup_ids_NotificationsForRepo (env : Env) (s : Store) (hkey : s.KeyedById)
    (repo : String) : ((s.NotificationsForRepo env repo).map (fun n => n.Id)).Nodup := by
  unfold Store.NotificationsForRepo
  have hsub : (((env.rangeNotifications.order s.Notifications).map (fun e => e.2)).filter
        (fun n => n.Repository.FullName == repo)).map (fun n => n.Id) |>.Sublist
      (((env.rangeNotifications.order s.Notifications).map (fun e => e.2)).map (fun n => n.Id)) :=
    (List.filter_sublist _).map _
  refine List.Nodup.sublist hsub ?_
  have hkeys : ((env.rangeNotifications.order s.Notifications).map (fun e => e.2)).map
      (fun n => n.Id) = (env.rangeNotifications.order s.Notifications).map (fun e => e.1) := by
    rw [List.map_map]
    apply List.map_congr_left
    intro e he
    have hm : e ∈ s.Notifications.entries := (env.rangeNotifications.complete _).mem_iff.1 he
    exact hkey e.1 e.2 (AList.mem_lookup_iff.2 hm)
  rw [hkeys]
  have hp : ((env.rangeNotifications.order s.Notifications).map (fun e => e.1)).Perm
      s.Notifications.keys := (env.rangeNotifications.complete _).map _
  exact hp.nodup_iff.2 s.Notifications.keys_nodup

end GhNotifications

namespace GhNotifications

theorem ignoreLoop_cons_ok (env : Env) (s : Store) (w : World) (repo : String)
    (repos : List String) (h : (ignoreOne env s w repo).2.2 = none) :
    ignoreLoop env s w (repo :: repos) =
      ignoreLoop env (ignoreOne env s w repo).1 (ignoreOne env s w repo).2.1 repos := by
  rcases hr : ignoreOne env s w repo with ⟨s2, w2, r⟩
  rw [hr] at h
  simp only at h
  subst h
  simp [ignoreLoop, hr]

theorem ignoreLoop_cons_fail (env : Env) (s : Store) (w : World) (repo : String)
    (repos : List String) (e : Err) (h : (ignoreOne env s w repo).2.2 = some e) :
    ignoreLoop env s w (repo :: repos) = ignoreOne env s w repo := by
  rcases hr : ignoreOne env s w repo with ⟨s2, w2, r⟩
  rw [hr] at h
  simp only at h
  subst h
  simp [ignoreLoop, hr]

/-- What one completed round of the ignore loop did. -/
theorem ignoreOne_ok (env : Env) (s : Store) (w : World) (repo : String) (hkey : s.KeyedById)
    (h : (ignoreOne env s w repo).2.2 = none) :
    (∀ (k : String) (v : Notification),
      (ignoreOne env s w repo).1.Notifications.lookup k = some v ↔
        s.Notifications.lookup k = some v ∧ v.Repository.FullName ≠ repo) ∧
    (ignoreOne env s w repo).1.IgnoredRepos = s.IgnoredRepos.insert repo true ∧
    (ignoreOne env s w repo).1.Details = s.Details ∧
    ∃ reqs : List String, (ignoreOne env s w repo).2.1.deleted = w.deleted ++ reqs ∧
      reqs.Nodup ∧
      ∀ id : String, id ∈ reqs ↔
        ∃ v : Notification, s.Notifications.lookup id = some v ∧ v.Repository.FullName = repo := by
  have hkey1 : Store.KeyedById { s with IgnoredRepos := s.IgnoredRepos.insert repo true } := hkey
  have hmem := mem_ids_NotificationsForRepo env
    { s with IgnoredRepos := s.IgnoredRepos.insert repo true } hkey1 repo
  have hnod := nodup_ids_NotificationsForRepo env
    { s with IgnoredRepos := s.IgnoredRepos.insert repo true } hkey1 repo
  obtain ⟨h1, h2, h3, h4⟩ := dismissAll_ok env _ _ _ h
  refine ⟨?_, h2, h3, _, h4, hnod, hmem⟩
  intro k v
  unfold ignoreOne
  rw [h1 k]
  constructor
  · intro hv
    split at hv
    · cases hv
    · next hk =>
      refine ⟨hv, fun hr => hk ((hmem k).2 ⟨v, hv, hr⟩)⟩
  · rintro ⟨hv, hr⟩
    have hk : k ∉ List.map (fun n => n.Id)
        (Store.NotificationsForRepo env
          { s with IgnoredRepos := s.IgnoredRepos.insert repo true } repo) := by
      intro hin
      obtain ⟨v2, hv2, hr2⟩ := (hmem k).1 hin
      have hv' : s.Notifications.lookup k = some v2 := hv2
      rw [hv] at hv'
      cases hv'
      exact hr hr2
    rw [if_neg hk]
    exact hv

/-- What a completed ignore loop did. -/
theorem ignoreLoop_ok (env : Env) (names : List String) :
    ∀ (s : Store) (w : World), s.KeyedById → (ignoreLoop env s w names).2.2 = none →
      (∀ name : String, (ignoreLoop env s w names).1.IgnoredRepos.lookup name =
        if name ∈ names then some true else s.IgnoredRepos.lookup name) ∧
      (∀ (k : String) (v : Notification),
        (ignoreLoop env s w names).1.Notifications.lookup k = some v ↔
          s.Notifications.lookup k = some v ∧ v.Repository.FullName ∉ names) ∧
      (ignoreLoop env s w names).1.Details = s.Details ∧
      ∃ reqs : List String, (ignoreLoop env s w names).2.1.deleted = w.deleted ++ reqs ∧
        reqs.Nodup ∧
        ∀ id : String, id ∈ reqs ↔
          ∃ v : Notification, s.Notifications.lookup id = some v ∧
            v.Repository.FullName ∈ names := by
  induction names with
  | nil =>
    intro s w _ _
    refine ⟨fun name => by simp [ignoreLoop], fun k v => by simp [ignoreLoop], rfl,
      [], by simp [ignoreLoop], List.nodup_nil, fun id => by simp⟩
  | cons repo repos ih =>
    intro s w hkey h
    cases hone : (ignoreOne env s w repo).2.2 with
    | some e =>
      rw [ignoreLoop_cons_fail env s w repo repos e hone, hone] at h
      cases h
    | none =>
      rw [ignoreLoop_cons_ok env s w repo repos hone] at h ⊢
      obtain ⟨a1, a2, a3, reqs1, a4, a5, a6⟩ := ignoreOne_ok env s w repo hkey hone
      have hkey2 : (ignoreOne env s w repo).1.KeyedById := by
        intro k v hv
        exact hkey k v ((a1 k v).1 hv).1
      obtain ⟨b1, b2, b3, reqs2, b4, b5, b6⟩ := ih _ _ hkey2 h
      refine ⟨?_, ?_, by rw [b3, a3], reqs1 ++ reqs2, by rw [b4, a4, List.append_assoc],
        ?_, ?_⟩
      · intro name
        rw [b1 name, a2]
        by_cases hin : name ∈ repos
        · simp [hin]
        · by_cases hn : name = repo
          · subst hn
            simp [hin, AList.lookup_insert]
          · simp [hin, hn, AList.lookup_insert_ne hn]
      · intro k v
        rw [b2 k v, a1 k v]
        simp only [List.mem_cons, not_or]
        tauto
      · refine List.Nodup.append a5 b5 ?_
        intro id h1 h2
        obtain ⟨v1, hv1, hr1⟩ := (a6 id).1 h1
        obtain ⟨v2, hv2, _⟩ := (b6 id).1 h2
        have := (a1 id v2).1 hv2
        rw [hv1] at this
        obtain ⟨hveq, hne⟩ := this
        cases hveq
        exact hne hr1
      · intro id
        rw [List.mem_append, a6 id, b6 id]
        constructor
        · rintro (⟨v, hv, hr⟩ | ⟨v, hv, hr⟩)
          · exact ⟨v, hv, by simp [hr]⟩
          · exact ⟨v, ((a1 id v).1 hv).1, List.mem_cons_of_mem _ hr⟩
        · rintro ⟨v, hv, hr⟩
          by_cases hrepo : v.Repository.FullName = repo
          · exact Or.inl ⟨v, hv, hrepo⟩
          · refine Or.inr ⟨v, (a1 id v).2 ⟨hv, hrepo⟩, ?_⟩
            rcases List.mem_cons.1 hr with h | h
            · exact absurd h hrepo
            · exact h

/-- Where a failed ignore loop stopped: at the first name whose round failed. -/
theorem ignoreLoop_fail (env : Env) (names : List String) :
    ∀ (s : Store) (w : World) (e : Err), (ignoreLoop env s w names).2.2 = some e →
      ∃ (pre : List String) (name : String) (post : List String) (s1 : Store) (w1 : World),
        names = pre ++ name :: post ∧
        ignoreLoop env s w pre = (s1, w1, none) ∧
        (ignoreOne env s1 w1 name).2.2 = some e ∧
        ignoreLoop env s w names = ignoreOne env s1 w1 name := by
  induction names with
  | nil => intro s w e h; simp [ignoreLoop] at h
  | cons repo repos ih =>
    intro s w e h
    cases hone : (ignoreOne env s w repo).2.2 with
    | some e1 =>
      have hl := ignoreLoop_cons_fail env s w repo repos e1 hone
      rw [hl, hone] at h
      cases h
      exact ⟨[], repo, repos, s, w, rfl, rfl, hone, hl⟩
    | none =>
      have hl := ignoreLoop_cons_ok env s w repo repos hone
      rw [hl] at h
      obtain ⟨pre, name, post, s1, w1, h1, h2, h3, h4⟩ := ih _ _ e h
      refine ⟨repo :: pre, name, post, s1, w1, by rw [h1]; rfl, ?_, h3, ?_⟩
      · rw [ignoreLoop_cons_ok env s w repo pre hone]; exact h2
      · rw [hl]; exact h4

theorem ignoreLoop_world (env : Env) (names : List String) :
    ∀ (s : Store) (w : World),
      (ignoreLoop env s w names).2.1.file = w.file ∧
      (ignoreLoop env s w names).2.1.fsCalls = w.fsCalls ∧
      (ignoreLoop env s w names).2.1.stdout = w.stdout := by
  induction names with
  | nil => intro s w; simp [ignoreLoop]
  | cons repo repos ih =>
    intro s w
    have hw : (ignoreOne env s w repo).2.1.file = w.file ∧
        (ignoreOne env s w repo).2.1.fsCalls = w.fsCalls ∧
        (ignoreOne env s w repo).2.1.stdout = w.stdout := dismissAll_world env _ _ _
    cases hone : (ignoreOne env s w repo).2.2 with
    | some e =>
      rw [ignoreLoop_cons_fail env s w repo repos e hone]
      exact hw
    | none =>
      rw [ignoreLoop_cons_ok env s w repo repos hone]
      obtain ⟨i1, i2, i3⟩ := ih (ignoreOne env s w repo).1 (ignoreOne env s w repo).2.1
      exact ⟨i1.trans hw.1, i2.trans hw.2.1, i3.trans hw.2.2⟩

theorem LoadStore_world (env : Env) (w : World) :
    (LoadStore env w).1.file = w.file ∧ (LoadStore env w).1.stdout = w.stdout ∧
      (LoadStore env w).1.deleted = w.deleted := by
  unfold LoadStore fsCall
  cases env.fsFault w.fsCalls with
  | some e => simp
  | none =>
    simp only
    cases w.file <;> simp

/-- A failed ignore loop ends `ignoreAction` with that error, before `Dump`. -/
theorem ignoreAction_fail (env : Env) (w0 w : World) (s : Store) (names : List String) (e : Err)
    (hload : LoadStore env w0 = (w, Except.ok s))
    (h : (ignoreLoop env s w names).2.2 = some e) :
    ignoreAction env w0 names = ((ignoreLoop env s w names).2.1, Outcome.error e) ∧
    (ignoreAction env w0 names).1.file = w0.file ∧
    (ignoreAction env w0 names).1.stdout = w0.stdout := by
  have hw := ignoreLoop_world env names s w
  have hl := LoadStore_world env w0
  rw [hload] at hl
  have key : ignoreAction env w0 names = ((ignoreLoop env s w names).2.1, Outcome.error e) := by
    unfold ignoreAction
    rw [hload]
    rcases hr : ignoreLoop env s w names with ⟨s2, w2, r⟩
    rw [hr] at h
    simp only at h
    subst h
    simp [hr]
  rw [key]
  exact ⟨rfl, hw.1.trans hl.1, hw.2.2.trans hl.2.1⟩

end GhNotifications

namespace GhNotifications

theorem storeA_keyed : storeA.KeyedById := by
  intro k v hv
  by_cases hk : k = "1"
  · subst hk
    have : storeA.Notifications.lookup "1" = some note1 := by decide
    rw [this] at hv
    cases hv
    rfl
  · have : storeA.Notifications.lookup k = none := by
      unfold storeA
      simp only
      rw [AList.lookup_insert_ne hk]
      exact AList.lookup_empty k
    rw [this] at hv
    cases hv

theorem storeA_noSuppressed : storeA.NoSuppressed := by
  intro k v hv
  by_cases hk : k = "1"
  · subst hk
    have : storeA.Notifications.lookup "1" = some note1 := by decide
    rw [this] at hv
    cases hv
    decide
  · have : storeA.Notifications.lookup k = none := by
      unfold storeA
      simp only
      rw [AList.lookup_insert_ne hk]
      exact AList.lookup_empty k
    rw [this] at hv
    cases hv

/-- C6 (suppress postcondition): for a store whose notifications are keyed by their own
id and any names.  If the ignore loop ends without error, then `IgnoredRepos` maps every
given name to `true` and is unchanged elsewhere, an entry is in `Notifications` exactly
when it was there before and its repository is none of the names, and the deletion
requests issued are, each once, the ids of the entries of the named repositories.  If
the loop ends with error `e`, it stopped in the round of some name, after the rounds of
the names before it succeeded, at the first notification of that round whose deletion
failed with `e`: the result is the state at that request, so no later notification or
name was processed; and `ignoreAction` returns `e` with the store file and stdout
untouched. -/
theorem ignore_postcondition (env : Env) (s : Store) (w : World) (names : List String)
    (hkey : s.KeyedById) :
    ((ignoreLoop env s w names).2.2 = none →
      (∀ name : String, (ignoreLoop env s w names).1.IgnoredRepos.lookup name =
        if name ∈ names then some true else s.IgnoredRepos.lookup name) ∧
      (∀ (k : String) (v : Notification),
        (ignoreLoop env s w names).1.Notifications.lookup k = some v ↔
          s.Notifications.lookup k = some v ∧ v.Repository.FullName ∉ names) ∧
      ∃ reqs : List String, (ignoreLoop env s w names).2.1.deleted = w.deleted ++ reqs ∧
        reqs.Nodup ∧
        ∀ id : String, id ∈ reqs ↔
          ∃ v : Notification, s.Notifications.lookup id = some v ∧
            v.Repository.FullName ∈ names) ∧
    (∀ e : Err, (ignoreLoop env s w names).2.2 = some e →
      ∃ (pre : List String) (name : String) (post : List String) (s1 : Store) (w1 : World)
        (done : List Notification) (n : Notification) (rest : List Notification)
        (s2 : Store) (w2 : World),
        names = pre ++ name :: post ∧
        ignoreLoop env s w pre = (s1, w1, none) ∧
        Store.NotificationsForRepo env
          { s1 with IgnoredRepos := s1.IgnoredRepos.insert name true } name
            = done ++ n :: rest ∧
        dismissAll env { s1 with IgnoredRepos := s1.IgnoredRepos.insert name true } w1 done
          = (s2, w2, none) ∧
        env.delete w2.deleted n.Id = some e ∧
        ignoreLoop env s w names
          = (s2, { w2 with deleted := w2.deleted ++ [n.Id] }, some e)) ∧
    (∀ (w0 : World) (e : Err), LoadStore env w0 = (w, Except.ok s) →
      (ignoreLoop env s w names).2.2 = some e →
      (ignoreAction env w0 names).2 = Outcome.error e ∧
      (ignoreAction env w0 names).1.file = w0.file ∧
      (ignoreAction env w0 names).1.stdout = w0.stdout) := by
  refine ⟨?_, ?_, ?_⟩
  · intro h
    obtain ⟨h1, h2, _, h4⟩ := ignoreLoop_ok env names s w hkey h
    exact ⟨h1, h2, h4⟩
  · intro e h
    obtain ⟨pre, name, post, s1, w1, h1, h2, h3, h4⟩ := ignoreLoop_fail env names s w e h
    obtain ⟨done, n, rest, d1, d2, d3, d4⟩ := dismissAll_fail env _ _ _ e h3
    refine ⟨pre, name, post, s1, w1, done, n, rest,
      (dismissAll env { s1 with IgnoredRepos := s1.IgnoredRepos.insert name true } w1 done).1,
      (dismissAll env { s1 with IgnoredRepos := s1.IgnoredRepos.insert name true } w1 done).2.1,
      h1, h2, d1, ?_, d3, ?_⟩
    · exact Prod.ext rfl (Prod.ext rfl d2)
    · rw [h4]
      exact d4
  · intro w0 e hload h
    obtain ⟨a1, a2, a3⟩ := ignoreAction_fail env w0 w s names e hload h
    rw [a1] at a2 a3 ⊢
    exact ⟨rfl, a2, a3⟩

/-- Witness of C6: ignoring a/b in the store that holds notification "1" of a/b. -/
theorem ignore_postcondition_witness :
    (ignoreLoop calmEnv storeA freshWorld ["a/b"]).1.IgnoredRepos.lookup "a/b" = some true :=
  (((ignore_postcondition calmEnv storeA freshWorld ["a/b"] storeA_keyed).1
    (by decide)).1 "a/b").trans (by decide)

/-! ## The store invariant -/

theorem syncLoop_invariant (env : Env) (batch : List Notification) :
    ∀ (s : Store) (w : World), s.KeyedById → s.NoSuppressed →
      (syncLoop env s w batch).1.KeyedById ∧ (syncLoop env s w batch).1.NoSuppressed := by
  induction batch with
  | nil => intro s w h1 h2; exact ⟨h1, h2⟩
  | cons n ns ih =>
    intro s w h1 h2
    cases h : s.IgnoredRepos.flag n.Repository.FullName
    · rw [syncLoop_cons_fresh env s w n ns h]
      apply ih
      · intro k v hv
        by_cases hk : k = n.Id
        · subst hk
          have hv' : (s.Notifications.insert n.Id n).lookup n.Id = some v := hv
          rw [AList.lookup_insert] at hv'
          cases hv'
          rfl
        · have hv' : (s.Notifications.insert n.Id n).lookup k = some v := hv
          rw [AList.lookup_insert_ne hk] at hv'
          exact h1 k v hv'
      · intro k v hv
        by_cases hk : k = n.Id
        · subst hk
          have hv' : (s.Notifications.insert n.Id n).lookup n.Id = some v := hv
          rw [AList.lookup_insert] at hv'
          cases hv'
          exact h
        · have hv' : (s.Notifications.insert n.Id n).lookup k = some v := hv
          rw [AList.lookup_insert_ne hk] at hv'
          exact h2 k v hv'
    · rw [syncLoop_cons_ignored env s w n ns h]
      apply ih
      · intro k v hv
        exact h1 k v (Done_lookup_some env s w n hv)
      · intro k v hv
        rw [Done_ignored]
        exact h2 k v (Done_lookup_some env s w n hv)

theorem unignoreLoop_spec (names : List String) :
    ∀ s : Store, (unignoreLoop s names).Notifications = s.Notifications ∧
      ∀ name : String, (unignoreLoop s names).IgnoredRepos.flag name = true →
        s.IgnoredRepos.flag name = true := by
  induction names with
  | nil => intro s; exact ⟨rfl, fun _ h => h⟩
  | cons repo repos ih =>
    intro s
    obtain ⟨i1, i2⟩ := ih { s with IgnoredRepos := s.IgnoredRepos.erase repo }
    refine ⟨i1, fun name h => ?_⟩
    have h1 := i2 name h
    by_cases hn : name = repo
    · subst hn
      simp [GoMap.flag, AList.lookup_erase] at h1
    · simpa [GoMap.flag, AList.lookup_erase_ne hn] using h1

theorem doneLoop_spec (env : Env) (ids : List String) :
    ∀ (s : Store) (w : World),
      (∀ (k : String) (v : Notification),
        (doneLoop env s w ids).1.Notifications.lookup k = some v →
          s.Notifications.lookup k = some v) ∧
      (doneLoop env s w ids).1.IgnoredRepos = s.IgnoredRepos := by
  induction ids with
  | nil => intro s w; exact ⟨fun _ _ h => h, rfl⟩
  | cons id ids ih =>
    intro s w
    have hl := @Done_lookup_some env s w { Id := id, Repository := ⟨"", ""⟩, Subject := ⟨"", ""⟩ }
    have hi := Done_ignored env s w { Id := id, Repository := ⟨"", ""⟩, Subject := ⟨"", ""⟩ }
    unfold doneLoop
    rcases hd : s.Done env w { Id := id, Repository := ⟨"", ""⟩, Subject := ⟨"", ""⟩ }
      with ⟨s1, w1, r⟩
    rw [hd] at hl hi
    cases r with
    | some e => exact ⟨fun k v h => hl h, hi⟩
    | none =>
      obtain ⟨j1, j2⟩ := ih s1 w1
      exact ⟨fun k v h => hl (j1 k v h), j2.trans hi⟩

/-- C9 (store invariant): the predicate "every entry of `Notifications` is keyed by its
own id and none belongs to a suppressed repository" holds of the empty store and, for
every environment, carries over from the store before to the store after the sync
loop, the ignore loop that ended without error, the unignore loop, and the done loop
(whether or not it ended with an error). -/
theorem store_invariant_preserved (env : Env) (s : Store) (w : World)
    (hkey : s.KeyedById) (hsup : s.NoSuppressed) :
    (NewStore.KeyedById ∧ NewStore.NoSuppressed) ∧
    (∀ batch : List Notification,
      (syncLoop env s w batch).1.KeyedById ∧ (syncLoop env s w batch).1.NoSuppressed) ∧
    (∀ names : List String, (ignoreLoop env s w names).2.2 = none →
      (ignoreLoop env s w names).1.KeyedById ∧ (ignoreLoop env s w names).1.NoSuppressed) ∧
    (∀ names : List String,
      (unignoreLoop s names).KeyedById ∧ (unignoreLoop s names).NoSuppressed) ∧
    (∀ ids : List String,
      (doneLoop env s w ids).1.KeyedById ∧ (doneLoop env s w ids).1.NoSuppressed) := by
  refine ⟨⟨?_, ?_⟩, fun batch => syncLoop_invariant env batch s w hkey hsup, ?_, ?_, ?_⟩
  · intro k v hv
    rw [show NewStore.Notifications.lookup k = none from AList.lookup_empty k] at hv
    cases hv
  · intro k v hv
    rw [show NewStore.Notifications.lookup k = none from AList.lookup_empty k] at hv
    cases hv
  · intro names h
    obtain ⟨h1, h2, _, _⟩ := ignoreLoop_ok env names s w hkey h
    refine ⟨fun k v hv => hkey k v ((h2 k v).1 hv).1, fun k v hv => ?_⟩
    obtain ⟨hv1, hv2⟩ := (h2 k v).1 hv
    have := hsup k v hv1
    unfold GoMap.flag at this ⊢
    rw [h1, if_neg hv2]
    exact this
  · intro names
    obtain ⟨u1, u2⟩ := unignoreLoop_spec names s
    refine ⟨fun k v hv => hkey k v (by rw [← u1]; exact hv), fun k v hv => ?_⟩
    have := hsup k v (by rw [← u1]; exact hv)
    cases hf : (unignoreLoop s names).IgnoredRepos.flag v.Repository.FullName
    · rfl
    · rw [u2 _ hf] at this
      cases this
  · intro ids
    obtain ⟨d1, d2⟩ := doneLoop_spec env ids s w
    refine ⟨fun k v hv => hkey k v (d1 k v hv), fun k v hv => ?_⟩
    rw [d2]
    exact hsup k v (d1 k v hv)

/-- Witness of C9: after syncing "5" (suppressed x/y) and "6" (a/b) into the store that
suppresses x/y, the repository of the stored notification "6" is not suppressed. -/
theorem store_invariant_preserved_witness :
    (syncLoop calmEnv storeA freshWorld [note5, note6]).1.IgnoredRepos.flag
      note6.Repository.FullName = false :=
  ((store_invariant_preserved calmEnv storeA freshWorld storeA_keyed storeA_noSuppressed).2.1
    [note5, note6]).2 "6" note6 (by decide)

end GhNotifications

namespace GhNotifications

/-! ## The stable sort -/

theorem insertStable_perm {α : Type} (less : α → α → Bool) (x : α) (ys : List α) :
    (insertStable less x ys).Perm (x :: ys) := by
  induction ys with
  | nil => exact List.Perm.refl _
  | cons y ys ih =>
    unfold insertStable
    split
    · exact (List.Perm.cons y ih).trans (List.Perm.swap x y ys)
    · exact List.Perm.refl _

theorem sortSliceStable_perm {α : Type} (less : α → α → Bool) (xs : List α) :
    (sortSliceStable less xs).Perm xs := by
  induction xs with
  | nil => exact List.Perm.refl _
  | cons x xs ih =>
    unfold sortSliceStable
    exact (insertStable_perm less x _).trans (List.Perm.cons x ih)

theorem insertStable_pairwise {α : Type} (less : α → α → Bool)
    (hasym : ∀ a b, less a b = true → less b a = false)
    (htrans : ∀ a b c, less b a = false → less c b = false → less c a = false)
    (x : α) (ys : List α) (h : List.Pairwise (fun a b => less b a = false) ys) :
    List.Pairwise (fun a b => less b a = false) (insertStable less x ys) := by
  induction ys with
  | nil => exact List.pairwise_singleton _ _
  | cons y ys ih =>
    obtain ⟨hy, hys⟩ := List.pairwise_cons.1 h
    unfold insertStable
    split
    · next hlt =>
      refine List.pairwise_cons.2 ⟨?_, ih hys⟩
      intro z hz
      rcases List.mem_cons.1 ((insertStable_perm less x ys).mem_iff.1 hz) with rfl | hz
      · exact hasym _ _ hlt
      · exact hy z hz
    · next hnlt =>
      have hxy : less y x = false := by simpa using hnlt
      refine List.pairwise_cons.2 ⟨?_, h⟩
      intro z hz
      rcases List.mem_cons.1 hz with rfl | hz
      · exact hxy
      · exact htrans x y z hxy (hy z hz)

theorem sortSliceStable_pairwise {α : Type} (less : α → α → Bool)
    (hasym : ∀ a b, less a b = true → less b a = false)
    (htrans : ∀ a b c, less b a = false → less c b = false → less c a = false)
    (xs : List α) : List.Pairwise (fun a b => less b a = false) (sortSliceStable less xs) := by
  induction xs with
  | nil => exact List.Pairwise.nil
  | cons x xs ih =>
    unfold sortSliceStable
    exact insertStable_pairwise less hasym htrans x _ ih

theorem repoLess_iff (a b : Repository) : repoLess a b = true ↔ a.FullName < b.FullName := by
  unfold repoLess stringsCompare
  rw [String.lt_iff_toList_lt]
  by_cases h : a.FullName.toList < b.FullName.toList
  · rw [if_pos h]
    exact ⟨fun _ => h, fun _ => by decide⟩
  · rw [if_neg h]
    refine ⟨fun hx => ?_, fun hx => absurd hx h⟩
    by_cases h2 : a.FullName = b.FullName
    · rw [if_pos h2] at hx
      exact absurd hx (by decide)
    · rw [if_neg h2] at hx
      exact absurd hx (by decide)

theorem repoLess_false_iff (a b : Repository) :
    repoLess b a = false ↔ a.FullName ≤ b.FullName := by
  rw [← not_lt, ← repoLess_iff]
  simp

theorem sortedRepos_pairwise (env : Env) (byRepo : GoMap Repository (List Notification)) :
    List.Pairwise (fun a b : Repository => a.FullName ≤ b.FullName) (sortedRepos env byRepo) := by
  have h := sortSliceStable_pairwise repoLess
    (fun a b hab => by
      rw [repoLess_false_iff]
      exact le_of_lt ((repoLess_iff a b).1 hab))
    (fun a b c h1 h2 => by
      rw [repoLess_false_iff] at h1 h2 ⊢
      exact le_trans h1 h2)
    ((env.rangeGroups.order byRepo).map (fun e => e.1))
  exact h.imp (fun {a b} hab => (repoLess_false_iff a b).1 hab)

theorem sortedRepos_perm (env : Env) (byRepo : GoMap Repository (List Notification)) :
    (sortedRepos env byRepo).Perm byRepo.keys :=
  (sortSliceStable_perm _ _).trans ((env.rangeGroups.complete byRepo).map _)

/-! ## Grouping by repository -/

end GhNotifications

namespace GhNotifications

/-! ## Grouping by repository -/

theorem group_step_flat (m : GoMap Repository (List Notification)) (n : Notification) :
    ((m.insert n.Repository ((m.lookup n.Repository).getD [] ++ [n])).entries.flatMap
      (fun e => e.2)).Perm (m.entries.flatMap (fun e => e.2) ++ [n]) := by
  rw [AList.insert_entries, List.flatMap_cons]
  cases hl : m.lookup n.Repository with
  | none =>
    have hnot : n.Repository ∉ m.entries.keys := AList.lookup_eq_none.1 hl
    rw [List.kerase_of_not_mem_keys hnot]
    exact List.perm_append_comm
  | some old =>
    have hin : n.Repository ∈ m.entries.keys := by
      by_contra hnot
      have : m.lookup n.Repository = none := AList.lookup_eq_none.2 hnot
      rw [this] at hl
      cases hl
    obtain ⟨b, l₁, l₂, _, hsplit, hker⟩ := List.exists_of_kerase hin
    have hb : b = old := by
      have hmem : (⟨n.Repository, b⟩ : Sigma fun _ : Repository => List Notification)
          ∈ m.entries := by
        rw [hsplit]
        exact List.mem_append_right _ (List.mem_cons_self _ _)
      have := AList.mem_lookup_iff.2 hmem
      rw [hl] at this
      exact (Option.some.inj this).symm
    subst hb
    rw [hker, hsplit]
    simp only [Option.getD_some, List.flatMap_append, List.flatMap_cons]
    rw [← Multiset.coe_eq_coe]
    simp only [← Multiset.coe_add]
    abel

theorem group_step_sound (m : GoMap Repository (List Notification)) (n : Notification)
    (h : GroupsSound m) :
    GroupsSound (m.insert n.Repository ((m.lookup n.Repository).getD [] ++ [n])) := by
  intro r g hg
  by_cases hr : r = n.Repository
  · subst hr
    rw [AList.lookup_insert] at hg
    cases hg
    refine ⟨by simp, fun x hx => ?_⟩
    rcases List.mem_append.1 hx with hx | hx
    · cases hl : m.lookup n.Repository with
      | none => rw [hl] at hx; cases hx
      | some old =>
        rw [hl] at hx
        exact (h n.Repository old hl).2 x hx
    · rw [List.mem_singleton.1 hx]
  · rw [AList.lookup_insert_ne hr] at hg
    exact h r g hg

theorem group_fold (ns : List Notification) :
    ∀ (m : GoMap Repository (List Notification)) (seen : List Notification),
      (m.entries.flatMap (fun e => e.2)).Perm seen → GroupsSound m →
      ((ns.foldl (fun m n => m.insert n.Repository ((m.lookup n.Repository).getD [] ++ [n]))
          m).entries.flatMap (fun e => e.2)).Perm (seen ++ ns) ∧
      GroupsSound
        (ns.foldl (fun m n => m.insert n.Repository ((m.lookup n.Repository).getD [] ++ [n]))
          m) := by
  induction ns with
  | nil => intro m seen hp hs; simpa using ⟨hp, hs⟩
  | cons n ns ih =>
    intro m seen hp hs
    have hstep := (group_step_flat m n).trans (List.Perm.append_right [n] hp)
    obtain ⟨i1, i2⟩ := ih _ (seen ++ [n]) hstep (group_step_sound m n hs)
    refine ⟨?_, i2⟩
    simpa [List.append_assoc] using i1

theorem NotificationsByRepo_spec (env : Env) (s : Store) :
    ((s.NotificationsByRepo env).entries.flatMap (fun e => e.2)).Perm
        (s.Notifications.entries.map (fun e => e.2)) ∧
      GroupsSound (s.NotificationsByRepo env) := by
  have hempty : GroupsSound (∅ : GoMap Repository (List Notification)) := by
    intro r g hg
    rw [AList.lookup_empty] at hg
    cases hg
  obtain ⟨h1, h2⟩ := group_fold
    ((env.rangeNotifications.order s.Notifications).map (fun e => e.2)) ∅ []
    (List.Perm.refl _) hempty
  refine ⟨?_, h2⟩
  have h3 : ((env.rangeNotifications.order s.Notifications).map (fun e => e.2)).Perm
      (s.Notifications.entries.map (fun e => e.2)) :=
    (env.rangeNotifications.complete _).map _
  rw [List.nil_append] at h1
  exact h1.trans h3

/-- The groups, flattened in any order of the keys, are the groups of the entries. -/
theorem flatMap_lookup_keys (m : GoMap Repository (List Notification)) :
    (m.keys.flatMap (fun r => (m.lookup r).getD [])) = m.entries.flatMap (fun e => e.2) := by
  unfold AList.keys List.keys
  rw [List.flatMap_map]
  apply List.flatMap_congr
  intro e he
  have : m.lookup e.1 = some e.2 := AList.mem_lookup_iff.2 he
  rw [this]
  rfl

/-- C10 (grouped view): the groups `RenderNotifications` iterates are in ascending order
of `FullName`, no repository has two groups, the groups together hold every entry of
`Notifications` exactly once (their concatenation is a rearrangement of the stored
notifications), every member of a group has the group's repository, and no group is
empty. -/
theorem groups_sorted_partition (env : Env) (s : Store) :
    List.Pairwise (fun a b => a.1.FullName ≤ b.1.FullName) (s.groups env) ∧
    ((s.groups env).map (fun g => g.1)).Nodup ∧
    ((s.groups env).flatMap (fun g => g.2)).Perm
      (s.Notifications.entries.map (fun e => e.2)) ∧
    (∀ g ∈ s.groups env, (∀ n ∈ g.2, n.Repository = g.1) ∧ g.2 ≠ []) := by
  obtain ⟨hflat, hsound⟩ := NotificationsByRepo_spec env s
  have hperm := sortedRepos_perm env (s.NotificationsByRepo env)
  have hkeys : (s.groups env).map (fun g => g.1) = sortedRepos env (s.NotificationsByRepo env) := by
    unfold Store.groups
    rw [List.map_map]
    exact List.map_id _
  refine ⟨?_, ?_, ?_, ?_⟩
  · have := sortedRepos_pairwise env (s.NotificationsByRepo env)
    rw [← hkeys, List.pairwise_map] at this
    exact this
  · rw [hkeys]
    exact hperm.nodup_iff.2 (s.NotificationsByRepo env).keys_nodup
  · have h1 : (s.groups env).flatMap (fun g => g.2) =
        (sortedRepos env (s.NotificationsByRepo env)).flatMap
          (fun r => ((s.NotificationsByRepo env).lookup r).getD []) := by
      unfold Store.groups
      rw [List.flatMap_map]
    rw [h1]
    refine (List.Perm.flatMap_right _ hperm).trans ?_
    rw [flatMap_lookup_keys]
    exact hflat
  · intro g hg
    unfold Store.groups at hg
    obtain ⟨r, hr, rfl⟩ := List.mem_map.1 hg
    have hin : r ∈ (s.NotificationsByRepo env).keys := hperm.mem_iff.1 hr
    cases hl : (s.NotificationsByRepo env).lookup r with
    | none => exact absurd hin (AList.lookup_eq_none.1 hl)
    | some grp =>
      obtain ⟨a, b⟩ := hsound r grp hl
      exact ⟨b, a⟩

end GhNotifications
